import Mathlib

/-!
Verification of the Centipede work-directory path-addressing scheme
(`centipede/workdir.cc`).  The C++ code is shallowly embedded: strings are
Lean `String`s (lists of characters), `std::filesystem::path` operations
(`operator/`, `parent_path`, `stem`, `extension`) are modelled for POSIX
paths as executable functions on the underlying character lists,
`absl::StrFormat("%0*d", width, n)` is modelled by an explicit zero-padded
decimal renderer, and `absl::SimpleAtoi` (base 10, unsigned 64-bit) by its
documented parse: optional surrounding ASCII whitespace, an optional sign,
then decimal digits.  A `CHECK` failure (process abort) is modelled by
`Option`/`none`.
-/

/-- Characters of a string, as a list. -/
def chs (s : String) : List Char := s.data

theorem chs_append (a b : String) : chs (a ++ b) = chs a ++ chs b := rfl

theorem chs_mk (l : List Char) : chs (String.mk l) = l := rfl

/-- ASCII decimal digit. -/
def isDigitCh (c : Char) : Bool := 48 ≤ c.toNat && c.toNat ≤ 57

/-- ASCII whitespace, as `absl::ascii_isspace` classifies it. -/
def isSpaceCh (c : Char) : Bool :=
  c = ' ' || c = '\t' || c = '\n' || c = '\x0b' || c = '\x0c' || c = '\r'

/-- The digit character of a value below ten. -/
def digitCh (d : Nat) : Char := Char.ofNat (48 + d)

/-- Not a path separator. -/
def notSlash (c : Char) : Bool := c ≠ '/'

/-- A path separator. -/
def isSlash (c : Char) : Bool := c = '/'

/-- Not a dot. -/
def notDot (c : Char) : Bool := c ≠ '.'

theorem notSlash_true {c : Char} (h : c ≠ '/') : notSlash c = true := by
  simp [notSlash, h]

theorem notSlash_false : notSlash '/' = false := by decide

theorem isSlash_true : isSlash '/' = true := by decide

theorem isSlash_false {c : Char} (h : c ≠ '/') : isSlash c = false := by
  simp [isSlash, h]

theorem notDot_true {c : Char} (h : c ≠ '.') : notDot c = true := by
  simp [notDot, h]

theorem notDot_false : notDot '.' = false := by decide

/-- Big-endian decimal digits of `n`; `fuel` bounds the recursion depth and
any `fuel ≥ n` is enough. `decDigits` of 0 is `[]`, matching the printf
convention only after the zero-padding of `zeroPad` is applied. -/
def decDigits : Nat → Nat → List Char
  | 0, _ => []
  | fuel + 1, n => if n = 0 then [] else decDigits fuel (n / 10) ++ [digitCh (n % 10)]

/-- The decimal rendering of `n`, as `%d` prints it. -/
def decRepr (n : Nat) : List Char := if n = 0 then ['0'] else decDigits n n

/-- `%0*d`: the decimal rendering of `n`, left-padded with zeros to width
`w` (and wider than `w` when the rendering itself is). -/
def zeroPad (w n : Nat) : List Char :=
  List.replicate (w - (decRepr n).length) '0' ++ decRepr n

/-- The value of a big-endian digit list (the usual decimal fold). -/
def decVal (l : List Char) : Nat := l.foldl (fun a c => 10 * a + (c.toNat - 48)) 0

/-- POSIX `std::filesystem::path` append (`operator/`): an absolute right
operand replaces the left one; otherwise a directory separator is inserted
unless the left operand is empty or already ends in one. -/
def pathJoin (base rel : String) : String :=
  if (chs rel).head? = some '/' then rel
  else if chs base = [] then rel
  else if (chs base).getLast? = some '/' then String.mk (chs base ++ chs rel)
  else String.mk (chs base ++ '/' :: chs rel)

/-- `path::filename()` on POSIX: the characters after the last separator
(the whole string when there is none, empty for a trailing separator). -/
def pathFilename (s : String) : String :=
  String.mk (((chs s).reverse.takeWhile notSlash).reverse)

/-- `path::parent_path()` on POSIX (libstdc++ behaviour): a path with no
relative part (empty or all separators) is its own parent; otherwise the
filename and the separators directly before it are removed, except that a
root is kept as a single separator. -/
def parentPath (s : String) : String :=
  let afterName := (chs s).reverse.dropWhile notSlash
  let trimmed := afterName.dropWhile isSlash
  if (chs s).all isSlash then s
  else if trimmed = [] ∧ afterName ≠ [] then "/"
  else String.mk trimmed.reverse

/-- `path::stem()` and `path::extension()` of a filename: split at the last
dot, except that `.`, `..`, and a dot in first position only give an empty
extension. Returns `(stem, dotted extension)`. -/
def splitExtF (f : String) : String × String :=
  if chs f = ['.'] ∨ chs f = ['.', '.'] then (f, "")
  else
    let r := (chs f).reverse
    let e := r.takeWhile notDot
    if e.length + 1 < r.length then
      (String.mk ((r.drop (e.length + 1)).reverse), String.mk ('.' :: e.reverse))
    else (f, "")

/-- `path::stem()` of a whole path. -/
def pathStem (s : String) : String := (splitExtF (pathFilename s)).1

/-- `path::extension()` of a whole path (with its leading dot). -/
def pathExtension (s : String) : String := (splitExtF (pathFilename s)).2

/-- `absl::SimpleAtoi` into a 64-bit unsigned integer: strips ASCII
whitespace from both ends, refuses an empty remainder and a `-` sign,
accepts an optional `+`, then requires decimal digits only and a value
below `2 ^ 64`. -/
def simpleAtoiU64 (s : String) : Option Nat :=
  let l := ((chs s).dropWhile isSpaceCh).reverse.dropWhile isSpaceCh |>.reverse
  match l with
  | [] => none
  | c :: rest =>
    if c = '-' then none
    else
      let ds := if c = '+' then rest else c :: rest
      match ds with
      | [] => none
      | _ =>
        if ds.all isDigitCh then
          if decVal ds < 2 ^ 64 then some (decVal ds) else none
        else none

/-- Modelled from the spec: the digit-width constant lives in `workdir.h`,
which is not among the repository's files; the spec fixes the fixed decimal
width as a single process-wide value and uses 6 throughout (§3, §8). -/
def kDigitsInShardIndex : Nat := 6

/-- The corpus shard filename stem (`workdir.cc`). -/
def kCorpusShardStem : String := "corpus"

/-- `NormalizeAnnotation`: empty stays empty; a value starting with a dot
trips a `CHECK` (modelled as `none`); otherwise a dot is prepended. -/
def NormalizeAnnotation (ann : String) : Option String :=
  if chs ann = [] then some ""
  else if (chs ann).head? = some '.' then none
  else some (String.mk ('.' :: chs ann))

/-- Modelled from the spec: `environment.h` is not among the repository's
files; the configuration collaborator supplies exactly the identity fields
`WorkDir::WorkDir(const Environment&)` reads (`env.workdir`,
`env.binary_name`, `env.binary_hash`, `env.my_shard_index`). -/
structure Environment where
  workdir : String
  binary_name : String
  binary_hash : String
  my_shard_index : Nat
deriving DecidableEq

/-- `WorkDir`: the identity every path computation is a pure function of. -/
structure WorkDir where
  workdir : String
  binary_name : String
  binary_hash : String
  my_shard_index : Nat
deriving DecidableEq

/-- The owning constructor `WorkDir::WorkDir(std::string, std::string,
std::string, size_t)`. -/
def WorkDir.ofParts (workdir binary_name binary_hash : String)
    (my_shard_index : Nat) : WorkDir :=
  ⟨workdir, binary_name, binary_hash, my_shard_index⟩

/-- The borrowing constructor `WorkDir::WorkDir(const Environment&)`. -/
def WorkDir.ofEnv (env : Environment) : WorkDir :=
  ⟨env.workdir, env.binary_name, env.binary_hash, env.my_shard_index⟩

/-- `WorkDir::ShardedFileInfo`: a sharded file group, holding the joined
path prefix and the owning shard index. -/
structure ShardedFileInfo where
  pfx : String
  my_shard_index : Nat
deriving DecidableEq

/-- The `ShardedFileInfo` constructor: joins `base_dir` and `rel_prefix`. -/
def ShardedFileInfo.ofParts (base_dir rel_pre : String)
    (my_shard_index : Nat) : ShardedFileInfo :=
  ⟨pathJoin base_dir rel_pre, my_shard_index⟩

/-- `ShardedFileInfo::ShardPath`: `StrFormat("%s%0*d", prefix_,
kDigitsInShardIndex, shard_index)`. -/
def ShardedFileInfo.ShardPath (info : ShardedFileInfo) (shard_index : Nat) : String :=
  info.pfx ++ String.mk (zeroPad kDigitsInShardIndex shard_index)

/-- `ShardedFileInfo::MyShardPath`. -/
def ShardedFileInfo.MyShardPath (info : ShardedFileInfo) : String :=
  info.ShardPath info.my_shard_index

/-- `ShardedFileInfo::AllShardsGlob`: `StrCat(prefix_, "*")`. -/
def ShardedFileInfo.AllShardsGlob (info : ShardedFileInfo) : String :=
  info.pfx ++ "*"

/-- `WorkDir::CoverageDirPath`. -/
def WorkDir.CoverageDirPath (wd : WorkDir) : String :=
  pathJoin wd.workdir (wd.binary_name ++ "-" ++ wd.binary_hash)

/-- `WorkDir::CrashReproducerDirPath`. -/
def WorkDir.CrashReproducerDirPath (wd : WorkDir) : String :=
  pathJoin wd.workdir "crashes"

/-- `WorkDir::BinaryInfoDirPath`. -/
def WorkDir.BinaryInfoDirPath (wd : WorkDir) : String :=
  pathJoin wd.CoverageDirPath "binary-info"

/-- `WorkDir::CorpusFiles`. -/
def WorkDir.CorpusFiles (wd : WorkDir) : ShardedFileInfo :=
  ShardedFileInfo.ofParts wd.workdir (kCorpusShardStem ++ ".") wd.my_shard_index

/-- `WorkDir::DistilledCorpusFiles`. -/
def WorkDir.DistilledCorpusFiles (wd : WorkDir) : ShardedFileInfo :=
  ShardedFileInfo.ofParts wd.workdir ("distilled-" ++ wd.binary_name ++ ".")
    wd.my_shard_index

/-- `WorkDir::FeaturesFiles`. -/
def WorkDir.FeaturesFiles (wd : WorkDir) : ShardedFileInfo :=
  ShardedFileInfo.ofParts wd.CoverageDirPath "features." wd.my_shard_index

/-- `WorkDir::DistilledFeaturesFiles`. -/
def WorkDir.DistilledFeaturesFiles (wd : WorkDir) : ShardedFileInfo :=
  ShardedFileInfo.ofParts wd.CoverageDirPath
    ("distilled-features-" ++ wd.binary_name ++ ".") wd.my_shard_index

/-- `WorkDir::FromCorpusShardPath`: recovers an identity from a corpus
shard path; each failed `CHECK` is `none`. -/
def WorkDir.FromCorpusShardPath (corpus_shard_path binary_name binary_hash : String) :
    Option WorkDir :=
  let dir := parentPath corpus_shard_path
  let stem := pathStem corpus_shard_path
  if stem ≠ kCorpusShardStem then none
  else
    let dot_ext := pathExtension corpus_shard_path
    if chs dot_ext = [] then none
    else
      let ext := String.mk ((chs dot_ext).drop 1)
      if (chs ext).length ≠ kDigitsInShardIndex then none
      else
        match simpleAtoiU64 ext with
        | none => none
        | some shard_index => some ⟨dir, binary_name, binary_hash, shard_index⟩

/-- The report-filename shape shared by the five report paths:
`StrFormat("<kind>-%s.%0*d%s<ext>", binary_name_, kDigitsInShardIndex,
my_shard_index_, NormalizeAnnotation(annotation))`, joined onto the
working directory. -/
def WorkDir.reportPath (wd : WorkDir) (kind ext ann : String) : Option String :=
  match NormalizeAnnotation ann with
  | none => none
  | some na =>
    some (pathJoin wd.workdir
      (kind ++ wd.binary_name ++ "." ++
        String.mk (zeroPad kDigitsInShardIndex wd.my_shard_index) ++ na ++ ext))

/-- `WorkDir::CoverageReportPath`. -/
def WorkDir.CoverageReportPath (wd : WorkDir) (ann : String) : Option String :=
  wd.reportPath "coverage-report-" ".txt" ann

/-- `WorkDir::CorpusStatsPath`. -/
def WorkDir.CorpusStatsPath (wd : WorkDir) (ann : String) : Option String :=
  wd.reportPath "corpus-stats-" ".json" ann

/-- `WorkDir::FuzzingStatsPath`. -/
def WorkDir.FuzzingStatsPath (wd : WorkDir) (ann : String) : Option String :=
  wd.reportPath "fuzzing-stats-" ".csv" ann

/-- `WorkDir::RUsageReportPath`. -/
def WorkDir.RUsageReportPath (wd : WorkDir) (ann : String) : Option String :=
  wd.reportPath "rusage-report-" ".txt" ann

/-- `WorkDir::SourceBasedCoverageReportPath` (no fixed extension). -/
def WorkDir.SourceBasedCoverageReportPath (wd : WorkDir) (ann : String) :
    Option String :=
  wd.reportPath "source-coverage-report-" "" ann

/-- `WorkDir::SourceBasedCoverageRawProfilePath`: the `%m` placeholder is
kept literally, as the source does. -/
def WorkDir.SourceBasedCoverageRawProfilePath (wd : WorkDir) : String :=
  pathJoin wd.CoverageDirPath
    ("clang_coverage." ++ String.mk (zeroPad kDigitsInShardIndex wd.my_shard_index) ++
      ".%m.profraw")

/-- `WorkDir::SourceBasedCoverageIndexedProfilePath`. -/
def WorkDir.SourceBasedCoverageIndexedProfilePath (wd : WorkDir) : String :=
  pathJoin wd.CoverageDirPath "clang_coverage.profdata"

/-- One entry a `std::filesystem::directory_iterator` yields: its full path
and whether it is a regular file. -/
structure DirEntry where
  path : String
  is_regular_file : Bool
deriving DecidableEq

/-- `WorkDir::EnumerateRawCoverageProfiles`: `fs` is the filesystem's
answer to listing a directory (`none` models `directory_iterator`
reporting an error). An error degrades to the empty list; otherwise the
regular files with extension `.profraw` are kept. -/
def WorkDir.EnumerateRawCoverageProfiles (wd : WorkDir)
    (fs : String → Option (List DirEntry)) : List String :=
  match fs wd.CoverageDirPath with
  | none => []
  | some entries =>
    (entries.filter (fun e => e.is_regular_file && pathExtension e.path == ".profraw")).map
      (fun e => e.path)

/-- The glob semantics the spec's matching property is stated under: the
pattern's final `*` matches any run of characters that stays within one
filename (no separator); everything before it is literal. -/
def globMatches (pattern s : String) : Bool :=
  let pre := (chs pattern).dropLast
  (chs s).take pre.length = pre && ((chs s).drop pre.length).all notSlash

theorem digitCh_toNat {d : Nat} (h : d < 10) : (digitCh d).toNat = 48 + d := by
  interval_cases d <;> decide

theorem isDigitCh_digitCh {d : Nat} (h : d < 10) : isDigitCh (digitCh d) = true := by
  interval_cases d <;> decide

theorem isDigitCh_toNat {c : Char} (h : isDigitCh c = true) :
    48 ≤ c.toNat ∧ c.toNat ≤ 57 := by
  simp only [isDigitCh, Bool.and_eq_true, decide_eq_true_eq] at h
  omega

theorem ne_of_toNat_ne {a b : Char} (h : a.toNat ≠ b.toNat) : a ≠ b :=
  fun e => h (congrArg Char.toNat e)

theorem digit_ne_slash {c : Char} (h : isDigitCh c = true) : c ≠ '/' := by
  have := isDigitCh_toNat h
  exact ne_of_toNat_ne (by simpa using by omega)

theorem digit_ne_dot {c : Char} (h : isDigitCh c = true) : c ≠ '.' := by
  have := isDigitCh_toNat h
  exact ne_of_toNat_ne (by simpa using by omega)

theorem not_isSpaceCh_of_digit {c : Char} (h : isDigitCh c = true) :
    isSpaceCh c = false := by
  have h2 := isDigitCh_toNat h
  simp only [isSpaceCh, Bool.or_eq_false_iff, decide_eq_false_iff_not]
  refine ⟨⟨⟨⟨⟨?_, ?_⟩, ?_⟩, ?_⟩, ?_⟩, ?_⟩ <;>
    exact ne_of_toNat_ne (by simpa using by omega)

theorem decDigits_all_digits : ∀ fuel n, (decDigits fuel n).all isDigitCh = true := by
  intro fuel
  induction fuel with
  | zero => intro n; rfl
  | succ fuel ih =>
    intro n
    by_cases h : n = 0
    · simp [decDigits, h]
    · simp only [decDigits, h, if_false, List.all_append, Bool.and_eq_true]
      exact ⟨ih (n / 10), by simp [isDigitCh_digitCh (Nat.mod_lt n (by omega))]⟩

theorem decVal_append_digit (l : List Char) (c : Char) :
    decVal (l ++ [c]) = 10 * decVal l + (c.toNat - 48) := by
  simp [decVal, List.foldl_append]

theorem decVal_decDigits : ∀ fuel n, n ≤ fuel → decVal (decDigits fuel n) = n := by
  intro fuel
  induction fuel with
  | zero => intro n h; interval_cases n; rfl
  | succ fuel ih =>
    intro n h
    by_cases h0 : n = 0
    · simp [decDigits, h0, decVal]
    · have hlt : n / 10 < n := Nat.div_lt_self (Nat.pos_of_ne_zero h0) (by omega)
      have hdiv : n / 10 ≤ fuel := by omega
      have hm : n % 10 < 10 := Nat.mod_lt n (by omega)
      simp only [decDigits, h0, if_false]
      rw [decVal_append_digit, ih _ hdiv, digitCh_toNat hm]
      omega

theorem decDigits_length_le : ∀ fuel n k, n < 10 ^ k → (decDigits fuel n).length ≤ k := by
  intro fuel
  induction fuel with
  | zero => intro n k _; simp [decDigits]
  | succ fuel ih =>
    intro n k hk
    by_cases h0 : n = 0
    · simp [decDigits, h0]
    · have hk1 : k ≠ 0 := by
        intro e; rw [e] at hk; simp at hk; omega
      have hpow : 10 * 10 ^ (k - 1) = 10 ^ k := by
        rw [← Nat.pow_succ']; congr 1; omega
      have hdiv : n / 10 < 10 ^ (k - 1) := by
        apply Nat.div_lt_of_lt_mul
        rw [hpow]; exact hk
      simp only [decDigits, h0, if_false, List.length_append, List.length_singleton]
      have := ih (n / 10) (k - 1) hdiv
      omega

theorem lt_pow_decDigits_length : ∀ fuel n, n ≤ fuel →
    n < 10 ^ (decDigits fuel n).length := by
  intro fuel
  induction fuel with
  | zero => intro n h; interval_cases n; simp [decDigits]
  | succ fuel ih =>
    intro n h
    by_cases h0 : n = 0
    · simp [decDigits, h0]
    · have hlt0 : n / 10 < n := Nat.div_lt_self (Nat.pos_of_ne_zero h0) (by omega)
      have hdiv : n / 10 ≤ fuel := by omega
      simp only [decDigits, h0, if_false, List.length_append, List.length_singleton]
      have hlt := ih (n / 10) hdiv
      have : n < 10 * 10 ^ (decDigits fuel (n / 10)).length := by
        have h9 : n % 10 ≤ 9 := by omega
        have hd : n = 10 * (n / 10) + n % 10 := (Nat.div_add_mod n 10).symm
        omega
      calc n < 10 * 10 ^ (decDigits fuel (n / 10)).length := this
      _ = 10 ^ ((decDigits fuel (n / 10)).length + 1) := by rw [Nat.pow_succ]; ring

theorem decRepr_all_digits (n : Nat) : (decRepr n).all isDigitCh = true := by
  by_cases h : n = 0
  · simp [decRepr, h]; decide
  · simp [decRepr, h, decDigits_all_digits]

theorem decVal_decRepr (n : Nat) : decVal (decRepr n) = n := by
  by_cases h : n = 0
  · simp [decRepr, h]; decide
  · simp [decRepr, h, decVal_decDigits n n (le_refl n)]

theorem decRepr_length_le {n k : Nat} (h : n < 10 ^ k) (hk : 1 ≤ k) :
    (decRepr n).length ≤ k := by
  by_cases h0 : n = 0
  · simpa [decRepr, h0] using hk
  · simpa [decRepr, h0] using decDigits_length_le n n k h

theorem lt_pow_of_decRepr_length {n k : Nat} (h : (decRepr n).length ≤ k) :
    n < 10 ^ k := by
  by_cases h0 : n = 0
  · have : 0 < 10 ^ k := Nat.pos_pow_of_pos k (by omega)
    omega
  · have h1 : n < 10 ^ (decDigits n n).length := lt_pow_decDigits_length n n (le_refl n)
    have h2 : (decDigits n n).length ≤ k := by simpa [decRepr, h0] using h
    calc n < 10 ^ (decDigits n n).length := h1
    _ ≤ 10 ^ k := Nat.pow_le_pow_right (by omega) h2

theorem decVal_replicate_zero_append (k : Nat) (l : List Char) :
    decVal (List.replicate k '0' ++ l) = decVal l := by
  induction k with
  | zero => rfl
  | succ k ih => simpa [List.replicate_succ, decVal] using ih

theorem decVal_zeroPad (w n : Nat) : decVal (zeroPad w n) = n := by
  rw [zeroPad, decVal_replicate_zero_append, decVal_decRepr]

theorem zeroPad_all_digits (w n : Nat) : (zeroPad w n).all isDigitCh = true := by
  simp only [zeroPad, List.all_append, Bool.and_eq_true]
  constructor
  · simp only [List.all_eq_true]
    intro c hc
    rw [List.eq_of_mem_replicate hc]; decide
  · exact decRepr_all_digits n

theorem zeroPad_length {w n : Nat} (h : (decRepr n).length ≤ w) :
    (zeroPad w n).length = w := by
  simp only [zeroPad, List.length_append, List.length_replicate]
  omega

theorem zeroPad_inj {w i j : Nat} (h : zeroPad w i = zeroPad w j) : i = j := by
  have := congrArg decVal h
  rwa [decVal_zeroPad, decVal_zeroPad] at this

theorem decRepr_length_pos (n : Nat) : 0 < (decRepr n).length := by
  by_cases h0 : n = 0
  · simp [decRepr, h0]
  · rcases Nat.eq_zero_or_pos (decRepr n).length with he | hp
    · exfalso
      have h1 : n < 10 ^ (decRepr n).length := lt_pow_of_decRepr_length (le_of_eq rfl)
      rw [he] at h1
      simp at h1
      exact h0 h1
    · exact hp

theorem zeroPad_ne_nil (w n : Nat) : zeroPad w n ≠ [] := by
  intro h
  have hl := congrArg List.length h
  simp only [zeroPad, List.length_append, List.length_replicate, List.length_nil] at hl
  have := decRepr_length_pos n
  omega

theorem digit_ne_minus {c : Char} (h : isDigitCh c = true) : c ≠ '-' := by
  have := isDigitCh_toNat h
  exact ne_of_toNat_ne (by simpa using by omega)

theorem digit_ne_plus {c : Char} (h : isDigitCh c = true) : c ≠ '+' := by
  have := isDigitCh_toNat h
  exact ne_of_toNat_ne (by simpa using by omega)

theorem takeWhile_append_all {p : Char → Bool} {l1 : List Char} (l2 : List Char)
    (h : ∀ a ∈ l1, p a = true) :
    (l1 ++ l2).takeWhile p = l1 ++ l2.takeWhile p := by
  induction l1 with
  | nil => rfl
  | cons a l ih =>
    have ha : p a = true := h a (by simp)
    simp only [List.cons_append, List.takeWhile_cons, ha, if_true]
    rw [ih (fun b hb => h b (by simp [hb]))]

theorem dropWhile_append_all {p : Char → Bool} {l1 : List Char} (l2 : List Char)
    (h : ∀ a ∈ l1, p a = true) :
    (l1 ++ l2).dropWhile p = l2.dropWhile p := by
  induction l1 with
  | nil => rfl
  | cons a l ih =>
    have ha : p a = true := h a (by simp)
    simp only [List.cons_append, List.dropWhile_cons, ha, if_true]
    exact ih (fun b hb => h b (by simp [hb]))

theorem takeWhile_cons_false {p : Char → Bool} {a : Char} (l : List Char)
    (h : p a = false) : (a :: l).takeWhile p = [] := by
  simp [List.takeWhile_cons, h]

theorem dropWhile_cons_false {p : Char → Bool} {a : Char} (l : List Char)
    (h : p a = false) : (a :: l).dropWhile p = a :: l := by
  simp [List.dropWhile_cons, h]

theorem all_isSlash_false {l : List Char} {c : Char} (hc : c ∈ l) (hne : c ≠ '/') :
    l.all isSlash = false := by
  by_cases h : l.all isSlash = true
  · exfalso
    simp only [List.all_eq_true] at h
    have := h c hc
    rw [isSlash_false hne] at this
    exact Bool.false_ne_true this
  · exact Bool.eq_false_iff.mpr h

/-- The base part a relative segment is appended to: empty for an empty
base, otherwise the base with a final separator ensured. -/
def joinBase (b : List Char) : List Char :=
  if b = [] then [] else if b.getLast? = some '/' then b else b ++ ['/']

theorem chs_pathJoin {rel : String} (base : String)
    (h : (chs rel).head? ≠ some '/') :
    chs (pathJoin base rel) = joinBase (chs base) ++ chs rel := by
  unfold pathJoin
  rw [if_neg h]
  by_cases e1 : chs base = []
  · rw [if_pos e1, e1]
    simp [joinBase]
  · by_cases e2 : (chs base).getLast? = some '/'
    · rw [if_neg e1, if_pos e2]
      unfold joinBase
      rw [if_neg e1, if_pos e2]
      exact chs_mk _
    · rw [if_neg e1, if_neg e2]
      unfold joinBase
      rw [if_neg e1, if_neg e2]
      rw [chs_mk]
      simp

theorem joinBase_cases (b : List Char) :
    joinBase b = [] ∨ (joinBase b).getLast? = some '/' := by
  unfold joinBase
  by_cases e1 : b = []
  · left; simp [e1]
  · right
    by_cases e2 : b.getLast? = some '/'
    · simp [e1, e2]
    · simp [e1, e2]

theorem pathFilename_append {a f : List Char}
    (ha : a = [] ∨ a.getLast? = some '/') (hf : ∀ c ∈ f, c ≠ '/') :
    pathFilename (String.mk (a ++ f)) = String.mk f := by
  unfold pathFilename
  simp only [chs_mk, List.reverse_append]
  rw [takeWhile_append_all a.reverse
    (by intro c hc; simp only [List.mem_reverse] at hc; exact notSlash_true (hf c hc))]
  rcases ha with ha | ha
  · simp [ha]
  · rcases e : a.reverse with _ | ⟨x, xs⟩
    · simp
    · have hx : x = '/' := by
        have hh : a.reverse.head? = some x := by rw [e]; rfl
        rw [List.head?_reverse] at hh
        rw [ha] at hh
        exact (Option.some_inj.mp hh).symm
      rw [takeWhile_cons_false xs (by rw [hx]; exact notSlash_false)]
      simp

theorem parentPath_eval (s : String) (hguard : (chs s).all isSlash = false) :
    parentPath s =
      if ((chs s).reverse.dropWhile notSlash).dropWhile isSlash = [] ∧
          (chs s).reverse.dropWhile notSlash ≠ [] then "/"
      else String.mk (((chs s).reverse.dropWhile notSlash).dropWhile isSlash).reverse := by
  show (if (chs s).all isSlash then s
      else if ((chs s).reverse.dropWhile notSlash).dropWhile isSlash = [] ∧
          (chs s).reverse.dropWhile notSlash ≠ [] then "/"
      else String.mk (((chs s).reverse.dropWhile notSlash).dropWhile isSlash).reverse) = _
  rw [if_neg (by simp [hguard])]

theorem parentPath_join (r : String) {f : List Char}
    (hf : ∀ c ∈ f, c ≠ '/') (hne : f ≠ [])
    (hr : chs r = [] ∨ (chs r).getLast? ≠ some '/' ∨ chs r = ['/']) :
    parentPath (String.mk (joinBase (chs r) ++ f)) = r := by
  have hstr : r = String.mk (chs r) := by cases r; rfl
  obtain ⟨c0, f', rfl⟩ : ∃ c0 f', f = c0 :: f' := by
    cases f with
    | nil => exact absurd rfl hne
    | cons x xs => exact ⟨x, xs, rfl⟩
  have hc0 : c0 ≠ '/' := hf c0 (by simp)
  have hguard : ((joinBase (chs r) ++ c0 :: f').all isSlash) = false :=
    all_isSlash_false (by simp) hc0
  rw [parentPath_eval _ (by rw [chs_mk]; exact hguard)]
  simp only [chs_mk]
  have hA : ((joinBase (chs r) ++ c0 :: f').reverse).dropWhile notSlash =
      (joinBase (chs r)).reverse.dropWhile notSlash := by
    rw [List.reverse_append]
    exact dropWhile_append_all _
      (by intro c hc; simp only [List.mem_reverse] at hc; exact notSlash_true (hf c hc))
  rw [hA]
  rcases hr with hr | hr | hr
  · -- empty working directory: the joined path is the bare filename
    have hjb : joinBase (chs r) = [] := by simp [joinBase, hr]
    rw [hjb]
    rw [if_neg (by simp)]
    rw [hstr, hr]
    rfl
  · by_cases hR : chs r = []
    · have hjb : joinBase (chs r) = [] := by simp [joinBase, hR]
      rw [hjb]
      rw [if_neg (by simp)]
      rw [hstr, hR]
      rfl
    · have hjb : joinBase (chs r) = chs r ++ ['/'] := by simp [joinBase, hR, hr]
      have hrev : (chs r ++ ['/']).reverse = '/' :: (chs r).reverse := by simp
      rw [hjb, hrev, dropWhile_cons_false _ notSlash_false]
      have hstep : ('/' :: (chs r).reverse).dropWhile isSlash =
          (chs r).reverse.dropWhile isSlash := by
        simp [List.dropWhile_cons, isSlash_true]
      rw [hstep]
      obtain ⟨x, xs, hx⟩ : ∃ x xs, (chs r).reverse = x :: xs := by
        rcases e : (chs r).reverse with _ | ⟨x, xs⟩
        · exact absurd (by simpa using congrArg List.reverse e) hR
        · exact ⟨x, xs, rfl⟩
      have hxv : x ≠ '/' := by
        intro e
        apply hr
        rw [← List.head?_reverse, hx, e]
        rfl
      rw [hx, dropWhile_cons_false _ (isSlash_false hxv)]
      rw [if_neg (by simp)]
      rw [← hx, List.reverse_reverse]
      exact hstr.symm
  · -- the root directory is its own parent
    have hjb : joinBase (chs r) = ['/'] := by simp [joinBase, hr]
    rw [hjb]
    have h1 : (['/'] : List Char).reverse.dropWhile notSlash = ['/'] := by
      simp [List.dropWhile_cons, notSlash_false]
    rw [h1]
    have h2 : (['/'] : List Char).dropWhile isSlash = [] := by
      simp [List.dropWhile_cons, isSlash_true]
    rw [h2]
    rw [if_pos (by simp)]
    rw [hstr, hr]

theorem mk_chs (s : String) : String.mk (chs s) = s := by cases s; rfl

theorem splitExtF_corpus {e : List Char} (he : ∀ c ∈ e, c ≠ '.') :
    splitExtF (String.mk (chs "corpus" ++ '.' :: e)) =
      ("corpus", String.mk ('.' :: e)) := by
  unfold splitExtF
  have h6 : (chs "corpus").length = 6 := rfl
  rw [if_neg ?hguard]
  case hguard =>
    rw [chs_mk]
    rintro (h | h) <;>
      · have hl := congrArg List.length h
        simp only [List.length_append, List.length_cons, List.length_nil, h6] at hl
        omega
  simp only [chs_mk]
  have hrev : (chs "corpus" ++ '.' :: e).reverse =
      e.reverse ++ '.' :: (chs "corpus").reverse := by
    have hsplit : chs "corpus" ++ '.' :: e = (chs "corpus" ++ ['.']) ++ e := by simp
    rw [hsplit, List.reverse_append, List.reverse_append]
    simp
  rw [hrev]
  have htake : (e.reverse ++ '.' :: (chs "corpus").reverse).takeWhile notDot =
      e.reverse := by
    rw [takeWhile_append_all _
      (by intro c hc; simp only [List.mem_reverse] at hc; exact notDot_true (he c hc))]
    rw [takeWhile_cons_false _ notDot_false]
    simp
  rw [htake]
  rw [if_pos ?hlt]
  case hlt =>
    simp only [List.length_append, List.length_cons, List.length_reverse, h6]
    omega
  rw [Prod.mk.injEq]
  refine ⟨?_, by rw [List.reverse_reverse]⟩
  have hassoc : e.reverse ++ '.' :: (chs "corpus").reverse =
      (e.reverse ++ ['.']) ++ (chs "corpus").reverse := by simp
  rw [hassoc, List.drop_left' (by simp), List.reverse_reverse]
  exact mk_chs "corpus"

theorem simpleAtoiU64_digits {l : List Char} (hd : l.all isDigitCh = true)
    (hne : l ≠ []) (hv : decVal l < 2 ^ 64) :
    simpleAtoiU64 (String.mk l) = some (decVal l) := by
  obtain ⟨c, rest, rfl⟩ : ∃ c rest, l = c :: rest := by
    cases l with
    | nil => exact absurd rfl hne
    | cons x xs => exact ⟨x, xs, rfl⟩
  have hc : isDigitCh c = true := by
    simp only [List.all_cons, Bool.and_eq_true] at hd
    exact hd.1
  have hdrop1 : (c :: rest).dropWhile isSpaceCh = c :: rest :=
    dropWhile_cons_false _ (not_isSpaceCh_of_digit hc)
  have hdrop2 : (c :: rest).reverse.dropWhile isSpaceCh = (c :: rest).reverse := by
    obtain ⟨y, ys, hy⟩ : ∃ y ys, (c :: rest).reverse = y :: ys := by
      rcases e : (c :: rest).reverse with _ | ⟨y, ys⟩
      · exact absurd (List.reverse_eq_nil_iff.mp e) (by simp)
      · exact ⟨y, ys, rfl⟩
    have hymem : y ∈ c :: rest := by
      rw [← List.mem_reverse, hy]; simp
    have hyd : isDigitCh y = true := by
      simp only [List.all_eq_true] at hd
      exact hd y hymem
    rw [hy]
    exact dropWhile_cons_false _ (not_isSpaceCh_of_digit hyd)
  unfold simpleAtoiU64
  simp only [chs_mk, hdrop1, hdrop2, List.reverse_reverse]
  rw [if_neg (digit_ne_minus hc)]
  rw [if_neg (digit_ne_plus hc)]
  show (if (c :: rest).all isDigitCh = true then
      if decVal (c :: rest) < 2 ^ 64 then some (decVal (c :: rest)) else none
    else none) = some (decVal (c :: rest))
  rw [if_pos hd, if_pos hv]

theorem zeroPad_no_dot {w n : Nat} {c : Char} (hc : c ∈ zeroPad w n) : c ≠ '.' := by
  have hall := zeroPad_all_digits w n
  simp only [List.all_eq_true] at hall
  exact digit_ne_dot (hall c hc)

theorem corpusF_no_slash {w n : Nat} :
    ∀ c ∈ chs "corpus" ++ '.' :: zeroPad w n, c ≠ '/' := by
  intro c hc
  rcases List.mem_append.mp hc with hc | hc
  · have h6 : chs "corpus" = ['c', 'o', 'r', 'p', 'u', 's'] := rfl
    rw [h6] at hc
    fin_cases hc <;> decide
  · rcases List.mem_cons.mp hc with hc | hc
    · rw [hc]; decide
    · have hall := zeroPad_all_digits w n
      simp only [List.all_eq_true] at hall
      exact digit_ne_slash (hall c hc)

theorem corpus_shardPath_shape (r B H : String) (myIdx i : Nat) :
    ((WorkDir.ofParts r B H myIdx).CorpusFiles).ShardPath i =
      String.mk (joinBase (chs r) ++
        (chs "corpus" ++ '.' :: zeroPad kDigitsInShardIndex i)) := by
  show pathJoin r (kCorpusShardStem ++ ".") ++
      String.mk (zeroPad kDigitsInShardIndex i) = _
  rw [← mk_chs (pathJoin r (kCorpusShardStem ++ ".") ++
    String.mk (zeroPad kDigitsInShardIndex i))]
  congr 1
  rw [chs_append, chs_pathJoin r (by decide), chs_mk]
  have hc : chs (kCorpusShardStem ++ ".") = chs "corpus" ++ ['.'] := rfl
  rw [hc]
  simp [chs_mk]

theorem corpus_decode_chain (r B H : String) (i : Nat)
    (hi : (decRepr i).length ≤ kDigitsInShardIndex) :
    WorkDir.FromCorpusShardPath
        (String.mk (joinBase (chs r) ++
          (chs "corpus" ++ '.' :: zeroPad kDigitsInShardIndex i))) B H =
      some ⟨parentPath (String.mk (joinBase (chs r) ++
        (chs "corpus" ++ '.' :: zeroPad kDigitsInShardIndex i))), B, H, i⟩ := by
  have hfn : pathFilename (String.mk (joinBase (chs r) ++
      (chs "corpus" ++ '.' :: zeroPad kDigitsInShardIndex i))) =
      String.mk (chs "corpus" ++ '.' :: zeroPad kDigitsInShardIndex i) :=
    pathFilename_append (joinBase_cases _) corpusF_no_slash
  have hsplitc := splitExtF_corpus (e := zeroPad kDigitsInShardIndex i)
    (fun c hc => zeroPad_no_dot hc)
  have hstem : pathStem (String.mk (joinBase (chs r) ++
      (chs "corpus" ++ '.' :: zeroPad kDigitsInShardIndex i))) = "corpus" := by
    unfold pathStem
    rw [hfn, hsplitc]
  have hext : pathExtension (String.mk (joinBase (chs r) ++
      (chs "corpus" ++ '.' :: zeroPad kDigitsInShardIndex i))) =
      String.mk ('.' :: zeroPad kDigitsInShardIndex i) := by
    unfold pathExtension
    rw [hfn, hsplitc]
  have hlen : (zeroPad kDigitsInShardIndex i).length = kDigitsInShardIndex :=
    zeroPad_length hi
  have hvb : decVal (zeroPad kDigitsInShardIndex i) < 2 ^ 64 := by
    rw [decVal_zeroPad]
    have h1 : i < 10 ^ kDigitsInShardIndex := lt_pow_of_decRepr_length hi
    have h2 : (10 : Nat) ^ kDigitsInShardIndex = 1000000 := by decide
    have h3 : (1000000 : Nat) < 2 ^ 64 := by norm_num
    omega
  have hatoi : simpleAtoiU64 (String.mk (zeroPad kDigitsInShardIndex i)) = some i := by
    rw [simpleAtoiU64_digits (zeroPad_all_digits _ _) (zeroPad_ne_nil _ _) hvb,
      decVal_zeroPad]
  simp only [WorkDir.FromCorpusShardPath]
  rw [hstem, if_neg (by decide)]
  rw [hext]
  rw [if_neg (by simp [chs_mk])]
  have hdrop : String.mk ((chs (String.mk ('.' :: zeroPad kDigitsInShardIndex i))).drop 1) =
      String.mk (zeroPad kDigitsInShardIndex i) := by
    rw [chs_mk, List.drop_one, List.tail_cons]
  rw [hdrop]
  rw [if_neg (by rw [chs_mk, hlen]; simp)]
  rw [hatoi]

/-- Claim C1 (amended): the round-trip holds for every `rootDir` that is
empty, the root `"/"`, or does not end in a separator; applied to the path
`CorpusFiles().ShardPath(i)` of a shard index whose decimal rendering fits
the configured width, `FromCorpusShardPath` recovers exactly the working
directory, the supplied binary identity, and the shard index. -/
theorem corpus_roundtrip (r B H : String) (myIdx i : Nat)
    (hr : chs r = [] ∨ (chs r).getLast? ≠ some '/' ∨ chs r = ['/'])
    (hi : (decRepr i).length ≤ kDigitsInShardIndex) :
    WorkDir.FromCorpusShardPath
        (((WorkDir.ofParts r B H myIdx).CorpusFiles).ShardPath i) B H =
      some (WorkDir.ofParts r B H i) := by
  rw [corpus_shardPath_shape, corpus_decode_chain r B H i hi]
  have hdir : parentPath (String.mk (joinBase (chs r) ++
      (chs "corpus" ++ '.' :: zeroPad kDigitsInShardIndex i))) = r :=
    parentPath_join r corpusF_no_slash (by simp) hr
  rw [hdir]
  rfl

/-- Witness for C1's amended theorem at a concrete identity. -/
theorem corpus_roundtrip_witness :
    WorkDir.FromCorpusShardPath
        (((WorkDir.ofParts "/data/run1" "target" "abcd1234" 0).CorpusFiles).ShardPath 7)
        "target" "abcd1234" =
      some (WorkDir.ofParts "/data/run1" "target" "abcd1234" 7) :=
  corpus_roundtrip "/data/run1" "target" "abcd1234" 0 7 (by decide) (by decide)

/-- Counterexample to claim C1 as stated: for the root directory `"a/"`
(which ends in a separator) the decoded working directory is `"a"`, not
the original `"a/"`. -/
theorem corpus_roundtrip_cex :
    WorkDir.FromCorpusShardPath
        (((WorkDir.ofParts "a/" "b" "h" 0).CorpusFiles).ShardPath 7) "b" "h" =
      some (WorkDir.ofParts "a" "b" "h" 7) ∧
    (WorkDir.ofParts "a" "b" "h" 7).workdir ≠ "a/" := by decide

/-- Claim C2: the claim is right and the code is wrong: the encode step
`ShardPath` is total and silently returns an over-width path for a shard
index whose decimal rendering exceeds the configured width, instead of
failing; at shard index 1000000 (7 digits, width 6) it returns a path
whose final segment is 7 digits wide. -/
theorem shardPath_overflow_returns_path :
    ((WorkDir.ofParts "/data/run1" "target" "abcd1234" 0).CorpusFiles).ShardPath 1000000 =
        "/data/run1/corpus.1000000" ∧
      (zeroPad kDigitsInShardIndex 1000000).length ≠ kDigitsInShardIndex := by decide

/-- Claim C5: the concrete width-6 scenario: own corpus shard path,
coverage directory, and decode of the produced corpus path. -/
theorem concrete_scenario :
    ((WorkDir.ofParts "/data/run1" "target" "abcd1234" 7).CorpusFiles).MyShardPath =
        "/data/run1/corpus.000007" ∧
      (WorkDir.ofParts "/data/run1" "target" "abcd1234" 7).CoverageDirPath =
        "/data/run1/target-abcd1234" ∧
      WorkDir.FromCorpusShardPath "/data/run1/corpus.000007" "target" "abcd1234" =
        some (WorkDir.ofParts "/data/run1" "target" "abcd1234" 7) := by decide

/-- Claim C3 (amended): `FromCorpusShardPath` succeeds on a path if and
only if the path's stem is exactly `corpus`, its extension is non-empty,
the extension after the leading dot has exactly the configured width in
characters, and that segment is accepted by `SimpleAtoi` (decimal digits,
optionally surrounded by ASCII whitespace and preceded by a `+` sign) —
not only when it consists purely of decimal digits. -/
theorem fromCorpusShardPath_iff (p B H : String) :
    (WorkDir.FromCorpusShardPath p B H).isSome = true ↔
      (pathStem p = kCorpusShardStem ∧ chs (pathExtension p) ≠ [] ∧
        ((chs (pathExtension p)).drop 1).length = kDigitsInShardIndex ∧
        (simpleAtoiU64 (String.mk ((chs (pathExtension p)).drop 1))).isSome = true) := by
  simp only [WorkDir.FromCorpusShardPath]
  by_cases h1 : pathStem p = kCorpusShardStem
  · rw [if_neg (by simp [h1])]
    by_cases h2 : chs (pathExtension p) = []
    · rw [if_pos h2]
      simp [h1, h2]
    · rw [if_neg h2]
      by_cases h3 : (chs (String.mk ((chs (pathExtension p)).drop 1))).length =
          kDigitsInShardIndex
      · rw [if_neg (not_ne_iff.mpr h3)]
        simp only [chs_mk, List.length_drop] at h3
        rcases e : simpleAtoiU64 (String.mk ((chs (pathExtension p)).drop 1)) with _ | n
        · simp [h1, h2, h3]
        · simp [h1, h2, h3]
      · rw [if_pos h3]
        simp only [chs_mk, List.length_drop] at h3
        simp [h1, h2, h3]
  · rw [if_pos h1]
    simp [h1]

/-- Counterexample to claim C3 as stated: the decode succeeds on a path
whose extension segment `+00007` is not made of decimal digits only
(`SimpleAtoi` accepts an optional leading `+`). -/
theorem fromCorpusShardPath_nondigit_cex :
    WorkDir.FromCorpusShardPath "/d/corpus.+00007" "b" "h" =
        some (WorkDir.ofParts "/d" "b" "h" 7) ∧
      pathExtension "/d/corpus.+00007" = ".+00007" ∧
      (chs "+00007").all isDigitCh = false := by decide

/-- The four sharded file groups of one identity. -/
inductive SFGroup where
  | corpus
  | distilledCorpus
  | features
  | distilledFeatures
deriving DecidableEq

/-- The group accessors of `WorkDir`, as one indexed family. -/
def WorkDir.groupFiles (wd : WorkDir) : SFGroup → ShardedFileInfo
  | .corpus => wd.CorpusFiles
  | .distilledCorpus => wd.DistilledCorpusFiles
  | .features => wd.FeaturesFiles
  | .distilledFeatures => wd.DistilledFeaturesFiles

theorem head?_chs_append (s t : String) (h : chs s ≠ []) :
    (chs (s ++ t)).head? = (chs s).head? := by
  rw [chs_append]
  rcases e : chs s with _ | ⟨x, xs⟩
  · exact absurd e h
  · simp

theorem corpus_pfx (wd : WorkDir) :
    chs wd.CorpusFiles.pfx =
      joinBase (chs wd.workdir) ++ (chs "corpus" ++ ['.']) := by
  show chs (pathJoin wd.workdir (kCorpusShardStem ++ ".")) = _
  rw [chs_pathJoin _ (by decide)]
  rfl

theorem distilledCorpus_pfx (wd : WorkDir) :
    chs wd.DistilledCorpusFiles.pfx =
      joinBase (chs wd.workdir) ++
        ((chs "distilled-" ++ chs wd.binary_name) ++ ['.']) := by
  show chs (pathJoin wd.workdir ("distilled-" ++ wd.binary_name ++ ".")) = _
  rw [chs_pathJoin _ ?hh]
  · rw [chs_append, chs_append]
    rfl
  case hh =>
    rw [head?_chs_append _ _ ?hne, head?_chs_append _ _ (by decide)]
    · decide
    case hne =>
      rw [chs_append]
      intro e
      exact absurd (List.append_eq_nil.mp e).1 (by decide)

theorem features_pfx (wd : WorkDir) :
    chs wd.FeaturesFiles.pfx =
      joinBase (chs wd.CoverageDirPath) ++ (chs "features" ++ ['.']) := by
  show chs (pathJoin wd.CoverageDirPath "features.") = _
  rw [chs_pathJoin _ (by decide)]
  rfl

theorem distilledFeatures_pfx (wd : WorkDir) :
    chs wd.DistilledFeaturesFiles.pfx =
      joinBase (chs wd.CoverageDirPath) ++
        ((chs "distilled-features-" ++ chs wd.binary_name) ++ ['.']) := by
  show chs (pathJoin wd.CoverageDirPath
    ("distilled-features-" ++ wd.binary_name ++ ".")) = _
  rw [chs_pathJoin _ ?hh]
  · rw [chs_append, chs_append]
    rfl
  case hh =>
    rw [head?_chs_append _ _ ?hne, head?_chs_append _ _ (by decide)]
    · decide
    case hne =>
      rw [chs_append]
      intro e
      exact absurd (List.append_eq_nil.mp e).1 (by decide)

theorem chs_shardPath (info : ShardedFileInfo) (i : Nat) :
    chs (info.ShardPath i) = chs info.pfx ++ zeroPad kDigitsInShardIndex i := rfl

/-- Claim C4: for every shard index below `10 ^ width`, `ShardPath` of any
of the four groups ends in exactly `width` decimal digits: its characters
are some list `t` ending in a dot (not a digit) followed by the
`width`-character zero-padded decimal rendering of the index. -/
theorem shardPath_fixed_width (wd : WorkDir) (g : SFGroup) (i : Nat)
    (hi : i < 10 ^ kDigitsInShardIndex) :
    ∃ t : List Char,
      chs ((wd.groupFiles g).ShardPath i) = t ++ zeroPad kDigitsInShardIndex i ∧
      (zeroPad kDigitsInShardIndex i).length = kDigitsInShardIndex ∧
      (zeroPad kDigitsInShardIndex i).all isDigitCh = true ∧
      t.getLast? = some '.' ∧ isDigitCh '.' = false := by
  have hlen : (zeroPad kDigitsInShardIndex i).length = kDigitsInShardIndex :=
    zeroPad_length (decRepr_length_le hi (by decide))
  cases g with
  | corpus =>
    refine ⟨joinBase (chs wd.workdir) ++ (chs "corpus" ++ ['.']),
      ?_, hlen, zeroPad_all_digits _ _, ?_, by decide⟩
    · rw [chs_shardPath]
      simp only [WorkDir.groupFiles]
      rw [corpus_pfx]
    · rw [← List.append_assoc]
      exact List.getLast?_concat _
  | distilledCorpus =>
    refine ⟨joinBase (chs wd.workdir) ++ ((chs "distilled-" ++ chs wd.binary_name) ++ ['.']),
      ?_, hlen, zeroPad_all_digits _ _, ?_, by decide⟩
    · rw [chs_shardPath]
      simp only [WorkDir.groupFiles]
      rw [distilledCorpus_pfx]
    · rw [← List.append_assoc]
      exact List.getLast?_concat _
  | features =>
    refine ⟨joinBase (chs wd.CoverageDirPath) ++ (chs "features" ++ ['.']),
      ?_, hlen, zeroPad_all_digits _ _, ?_, by decide⟩
    · rw [chs_shardPath]
      simp only [WorkDir.groupFiles]
      rw [features_pfx]
    · rw [← List.append_assoc]
      exact List.getLast?_concat _
  | distilledFeatures =>
    refine ⟨joinBase (chs wd.CoverageDirPath) ++
        ((chs "distilled-features-" ++ chs wd.binary_name) ++ ['.']),
      ?_, hlen, zeroPad_all_digits _ _, ?_, by decide⟩
    · rw [chs_shardPath]
      simp only [WorkDir.groupFiles]
      rw [distilledFeatures_pfx]
    · rw [← List.append_assoc]
      exact List.getLast?_concat _

/-- Witness for C4 at a concrete identity and index. -/
theorem shardPath_fixed_width_witness :
    ∃ t : List Char,
      chs (((WorkDir.ofParts "/r" "b" "h" 0).groupFiles SFGroup.corpus).ShardPath 42) =
        t ++ zeroPad kDigitsInShardIndex 42 ∧
      (zeroPad kDigitsInShardIndex 42).length = kDigitsInShardIndex ∧
      (zeroPad kDigitsInShardIndex 42).all isDigitCh = true ∧
      t.getLast? = some '.' ∧ isDigitCh '.' = false :=
  shardPath_fixed_width (WorkDir.ofParts "/r" "b" "h" 0) SFGroup.corpus 42 (by decide)

/-- Claim C8: within one sharded file group, distinct shard indices give
distinct shard paths. -/
theorem shardPath_inj (wd : WorkDir) (g : SFGroup) (i j : Nat) (hij : i ≠ j) :
    (wd.groupFiles g).ShardPath i ≠ (wd.groupFiles g).ShardPath j := by
  intro he
  apply hij
  have h2 := congrArg chs he
  rw [chs_shardPath, chs_shardPath] at h2
  exact zeroPad_inj (List.append_cancel_left h2)

/-- Witness for C8 at a concrete group and index pair. -/
theorem shardPath_inj_witness :
    ((WorkDir.ofParts "/r" "b" "h" 0).groupFiles SFGroup.features).ShardPath 1 ≠
      ((WorkDir.ofParts "/r" "b" "h" 0).groupFiles SFGroup.features).ShardPath 2 :=
  shardPath_inj (WorkDir.ofParts "/r" "b" "h" 0) SFGroup.features 1 2 (by decide)

theorem str_ext {a b : String} (h : chs a = chs b) : a = b := by
  cases a; cases b; cases h; rfl

theorem append_empty_left_assoc (x t : String) : x ++ "" ++ t = x ++ t := by
  apply str_ext
  rw [chs_append, chs_append, chs_append]
  simp [chs]

theorem reportPath_empty (wd : WorkDir) (kind ext : String) :
    wd.reportPath kind ext "" =
      some (pathJoin wd.workdir
        (kind ++ wd.binary_name ++ "." ++
          String.mk (zeroPad kDigitsInShardIndex wd.my_shard_index) ++ ext)) := by
  unfold WorkDir.reportPath NormalizeAnnotation
  have h0 : chs "" = ([] : List Char) := rfl
  rw [if_pos h0]
  show some (pathJoin wd.workdir
      (kind ++ wd.binary_name ++ "." ++
        String.mk (zeroPad kDigitsInShardIndex wd.my_shard_index) ++ "" ++ ext)) = _
  rw [append_empty_left_assoc]

theorem reportPath_plain (wd : WorkDir) (kind ext ann : String)
    (h1 : chs ann ≠ []) (h2 : (chs ann).head? ≠ some '.') :
    wd.reportPath kind ext ann =
      some (pathJoin wd.workdir
        (kind ++ wd.binary_name ++ "." ++
          String.mk (zeroPad kDigitsInShardIndex wd.my_shard_index) ++
          ("." ++ ann) ++ ext)) := by
  unfold WorkDir.reportPath NormalizeAnnotation
  rw [if_neg h1, if_neg h2]
  show some (pathJoin wd.workdir
      (kind ++ wd.binary_name ++ "." ++
        String.mk (zeroPad kDigitsInShardIndex wd.my_shard_index) ++
        String.mk ('.' :: chs ann) ++ ext)) = _
  have hdot : String.mk ('.' :: chs ann) = "." ++ ann := by
    apply str_ext
    rw [chs_mk, chs_append]
    rfl
  rw [hdot]

theorem reportPath_dotted (wd : WorkDir) (kind ext ann : String)
    (h2 : (chs ann).head? = some '.') :
    wd.reportPath kind ext ann = none := by
  unfold WorkDir.reportPath NormalizeAnnotation
  have h1 : chs ann ≠ [] := by
    intro e
    rw [e] at h2
    cases h2
  rw [if_neg h1, if_pos h2]

/-- Claim C6: for each of the five report-path functions, an empty report
annotation yields the plain filename, a non-empty one not starting with a
dot inserts `.` + the value between the padded shard index and the final
extension, and one starting with a dot is rejected (`none`). -/
theorem report_path_annotation_rules (wd : WorkDir) (ann : String) :
    (ann = "" →
      wd.CoverageReportPath ann =
        some (pathJoin wd.workdir ("coverage-report-" ++ wd.binary_name ++ "." ++
          String.mk (zeroPad kDigitsInShardIndex wd.my_shard_index) ++ ".txt")) ∧
      wd.CorpusStatsPath ann =
        some (pathJoin wd.workdir ("corpus-stats-" ++ wd.binary_name ++ "." ++
          String.mk (zeroPad kDigitsInShardIndex wd.my_shard_index) ++ ".json")) ∧
      wd.FuzzingStatsPath ann =
        some (pathJoin wd.workdir ("fuzzing-stats-" ++ wd.binary_name ++ "." ++
          String.mk (zeroPad kDigitsInShardIndex wd.my_shard_index) ++ ".csv")) ∧
      wd.RUsageReportPath ann =
        some (pathJoin wd.workdir ("rusage-report-" ++ wd.binary_name ++ "." ++
          String.mk (zeroPad kDigitsInShardIndex wd.my_shard_index) ++ ".txt")) ∧
      wd.SourceBasedCoverageReportPath ann =
        some (pathJoin wd.workdir ("source-coverage-report-" ++ wd.binary_name ++ "." ++
          String.mk (zeroPad kDigitsInShardIndex wd.my_shard_index) ++ ""))) ∧
    (chs ann ≠ [] → (chs ann).head? ≠ some '.' →
      wd.CoverageReportPath ann =
        some (pathJoin wd.workdir ("coverage-report-" ++ wd.binary_name ++ "." ++
          String.mk (zeroPad kDigitsInShardIndex wd.my_shard_index) ++
          ("." ++ ann) ++ ".txt")) ∧
      wd.CorpusStatsPath ann =
        some (pathJoin wd.workdir ("corpus-stats-" ++ wd.binary_name ++ "." ++
          String.mk (zeroPad kDigitsInShardIndex wd.my_shard_index) ++
          ("." ++ ann) ++ ".json")) ∧
      wd.FuzzingStatsPath ann =
        some (pathJoin wd.workdir ("fuzzing-stats-" ++ wd.binary_name ++ "." ++
          String.mk (zeroPad kDigitsInShardIndex wd.my_shard_index) ++
          ("." ++ ann) ++ ".csv")) ∧
      wd.RUsageReportPath ann =
        some (pathJoin wd.workdir ("rusage-report-" ++ wd.binary_name ++ "." ++
          String.mk (zeroPad kDigitsInShardIndex wd.my_shard_index) ++
          ("." ++ ann) ++ ".txt")) ∧
      wd.SourceBasedCoverageReportPath ann =
        some (pathJoin wd.workdir ("source-coverage-report-" ++ wd.binary_name ++ "." ++
          String.mk (zeroPad kDigitsInShardIndex wd.my_shard_index) ++
          ("." ++ ann) ++ ""))) ∧
    ((chs ann).head? = some '.' →
      wd.CoverageReportPath ann = none ∧
      wd.CorpusStatsPath ann = none ∧
      wd.FuzzingStatsPath ann = none ∧
      wd.RUsageReportPath ann = none ∧
      wd.SourceBasedCoverageReportPath ann = none) := by
  refine ⟨?_, ?_, ?_⟩
  · rintro rfl
    exact ⟨reportPath_empty wd _ _, reportPath_empty wd _ _, reportPath_empty wd _ _,
      reportPath_empty wd _ _, reportPath_empty wd _ _⟩
  · intro h1 h2
    exact ⟨reportPath_plain wd _ _ _ h1 h2, reportPath_plain wd _ _ _ h1 h2,
      reportPath_plain wd _ _ _ h1 h2, reportPath_plain wd _ _ _ h1 h2,
      reportPath_plain wd _ _ _ h1 h2⟩
  · intro h2
    exact ⟨reportPath_dotted wd _ _ _ h2, reportPath_dotted wd _ _ _ h2,
      reportPath_dotted wd _ _ _ h2, reportPath_dotted wd _ _ _ h2,
      reportPath_dotted wd _ _ _ h2⟩

/-- Claim C9: a directory-listing error degrades to the empty result; a
successful listing yields exactly the regular files whose extension is
`.profraw`, as a membership equivalence. -/
theorem enumerate_profiles_spec (wd : WorkDir)
    (fs : String → Option (List DirEntry)) :
    (fs wd.CoverageDirPath = none → wd.EnumerateRawCoverageProfiles fs = []) ∧
    (∀ es p, fs wd.CoverageDirPath = some es →
      (p ∈ wd.EnumerateRawCoverageProfiles fs ↔
        ∃ e ∈ es, e.is_regular_file = true ∧ pathExtension e.path = ".profraw" ∧
          p = e.path)) := by
  constructor
  · intro h
    unfold WorkDir.EnumerateRawCoverageProfiles
    rw [h]
  · intro es p h
    unfold WorkDir.EnumerateRawCoverageProfiles
    rw [h]
    simp only [List.mem_map, List.mem_filter, Bool.and_eq_true, beq_iff_eq]
    constructor
    · rintro ⟨e, ⟨hmem, hreg, hpr⟩, rfl⟩
      exact ⟨e, hmem, hreg, hpr, rfl⟩
    · rintro ⟨e, hmem, hreg, hpr, rfl⟩
      exact ⟨e, ⟨hmem, hreg, hpr⟩, rfl⟩

/-- Claim C10: the owning constructor and the `Environment` constructor
agree: when the environment's fields equal the given values, the two
`WorkDir`s are equal and every path-computing operation returns equal
results. -/
theorem constructors_equivalent (env : Environment) (w b h : String) (i : Nat)
    (hw : env.workdir = w) (hb : env.binary_name = b)
    (hh : env.binary_hash = h) (hi : env.my_shard_index = i) :
    WorkDir.ofEnv env = WorkDir.ofParts w b h i ∧
    ((WorkDir.ofEnv env).CoverageDirPath = (WorkDir.ofParts w b h i).CoverageDirPath ∧
      (WorkDir.ofEnv env).CrashReproducerDirPath =
        (WorkDir.ofParts w b h i).CrashReproducerDirPath ∧
      (WorkDir.ofEnv env).BinaryInfoDirPath =
        (WorkDir.ofParts w b h i).BinaryInfoDirPath ∧
      (∀ g j, ((WorkDir.ofEnv env).groupFiles g).ShardPath j =
        ((WorkDir.ofParts w b h i).groupFiles g).ShardPath j) ∧
      (∀ g, ((WorkDir.ofEnv env).groupFiles g).MyShardPath =
        ((WorkDir.ofParts w b h i).groupFiles g).MyShardPath) ∧
      (∀ g, ((WorkDir.ofEnv env).groupFiles g).AllShardsGlob =
        ((WorkDir.ofParts w b h i).groupFiles g).AllShardsGlob) ∧
      (∀ ann, (WorkDir.ofEnv env).CoverageReportPath ann =
        (WorkDir.ofParts w b h i).CoverageReportPath ann) ∧
      (∀ ann, (WorkDir.ofEnv env).CorpusStatsPath ann =
        (WorkDir.ofParts w b h i).CorpusStatsPath ann) ∧
      (∀ ann, (WorkDir.ofEnv env).FuzzingStatsPath ann =
        (WorkDir.ofParts w b h i).FuzzingStatsPath ann) ∧
      (∀ ann, (WorkDir.ofEnv env).RUsageReportPath ann =
        (WorkDir.ofParts w b h i).RUsageReportPath ann) ∧
      (∀ ann, (WorkDir.ofEnv env).SourceBasedCoverageReportPath ann =
        (WorkDir.ofParts w b h i).SourceBasedCoverageReportPath ann) ∧
      (WorkDir.ofEnv env).SourceBasedCoverageRawProfilePath =
        (WorkDir.ofParts w b h i).SourceBasedCoverageRawProfilePath ∧
      (WorkDir.ofEnv env).SourceBasedCoverageIndexedProfilePath =
        (WorkDir.ofParts w b h i).SourceBasedCoverageIndexedProfilePath ∧
      (∀ fs, (WorkDir.ofEnv env).EnumerateRawCoverageProfiles fs =
        (WorkDir.ofParts w b h i).EnumerateRawCoverageProfiles fs)) := by
  subst hw hb hh hi
  exact ⟨rfl, rfl, rfl, rfl, fun g j => rfl, fun g => rfl, fun g => rfl,
    fun ann => rfl, fun ann => rfl, fun ann => rfl, fun ann => rfl, fun ann => rfl,
    rfl, rfl, fun fs => rfl⟩

/-- Witness for C10 at a concrete environment. -/
theorem constructors_equivalent_witness :
    WorkDir.ofEnv ⟨"/r", "b", "h", 3⟩ = WorkDir.ofParts "/r" "b" "h" 3 :=
  (constructors_equivalent ⟨"/r", "b", "h", 3⟩ "/r" "b" "h" 3 rfl rfl rfl rfl).1

theorem head?_append_left {l m : List Char} (h : l ≠ []) :
    (l ++ m).head? = l.head? := by
  cases l with
  | nil => exact absurd rfl h
  | cons a t => simp

theorem getLast?_append_right {l m : List Char} (h : m ≠ []) :
    (l ++ m).getLast? = m.getLast? := by
  rw [← List.head?_reverse, List.reverse_append,
    head?_append_left (by simp [h]), List.head?_reverse]

theorem mem_of_getLast? {l : List Char} {c : Char} (h : l.getLast? = some c) :
    c ∈ l := by
  rw [← List.head?_reverse] at h
  rcases e : l.reverse with _ | ⟨x, xs⟩
  · rw [e] at h; cases h
  · rw [e] at h
    have hx : x = c := by simpa using h
    rw [← List.mem_reverse, e, hx]
    simp

theorem digits_notSlash {l : List Char} (h : l.all isDigitCh = true) :
    l.all notSlash = true := by
  simp only [List.all_eq_true] at h ⊢
  intro c hc
  exact notSlash_true (digit_ne_slash (h c hc))

theorem ends_dot (a l : List Char) : (a ++ (l ++ ['.'])).getLast? = some '.' := by
  rw [getLast?_append_right (by simp), getLast?_append_right (by simp)]
  rfl

theorem key_head_ne {S T rest : List Char} {a b : Char}
    (ha : T.head? = some a) (hb : S.head? = some b) (hab : a ≠ b)
    (he : T = S ++ rest) : False := by
  have hS : S ≠ [] := by
    intro e
    rw [e] at hb
    cases hb
  rw [he, head?_append_left hS, hb] at ha
  exact hab (Option.some_inj.mp ha).symm

theorem key_slash_into_free {T S rest : List Char}
    (hT : '/' ∈ T) (hS : S.all notSlash = true) (hrest : rest.all notSlash = true)
    (he : T = S ++ rest) : False := by
  rw [he] at hT
  rcases List.mem_append.mp hT with h | h
  · simp only [List.all_eq_true] at hS
    have := hS '/' h
    rw [notSlash_false] at this
    exact Bool.false_ne_true this
  · simp only [List.all_eq_true] at hrest
    have := hrest '/' h
    rw [notSlash_false] at this
    exact Bool.false_ne_true this

theorem key_free_from_slash {T S rest : List Char}
    (hS : '/' ∈ S) (hT : T.all notSlash = true) (he : T = S ++ rest) : False := by
  have hm : '/' ∈ T := by
    rw [he]
    exact List.mem_append_left _ hS
  simp only [List.all_eq_true] at hT
  have := hT '/' hm
  rw [notSlash_false] at this
  exact Bool.false_ne_true this

/-- Core of the negative glob direction: a glob prefix `jb ++ Si` ending in
a dot cannot match a shard path `(jb ++ Sj) ++ pad` of another group when
every slash-free continuation of `Si` into `Sj` is refuted by `key`. -/
theorem no_cross_match {jb Si Sj pad : List Char}
    (hlast : (jb ++ Si).getLast? = some '.')
    (hpad : pad.all isDigitCh = true)
    (key : ∀ rest, rest.all notSlash = true → Sj = Si ++ rest → False) :
    ¬ (((jb ++ Sj) ++ pad).take (jb ++ Si).length = jb ++ Si ∧
      (((jb ++ Sj) ++ pad).drop (jb ++ Si).length).all notSlash = true) := by
  rintro ⟨htake, hdrop⟩
  by_cases hle : (jb ++ Si).length ≤ (jb ++ Sj).length
  · rw [List.take_append_of_le_length hle] at htake
    have hsplit : jb ++ Sj = (jb ++ Si) ++ (jb ++ Sj).drop (jb ++ Si).length := by
      conv_lhs => rw [← List.take_append_drop (jb ++ Si).length (jb ++ Sj)]
      rw [htake]
    rw [List.append_assoc] at hsplit
    have hseg : Sj = Si ++ (jb ++ Sj).drop (jb ++ Si).length :=
      List.append_cancel_left hsplit
    rw [List.drop_append_of_le_length hle, List.all_append, Bool.and_eq_true] at hdrop
    exact key _ hdrop.1 hseg
  · push_neg at hle
    rw [List.take_append_eq_append_take,
      List.take_of_length_le (le_of_lt hle)] at htake
    have hu : jb ++ Si = (jb ++ Sj) ++ pad.take ((jb ++ Si).length - (jb ++ Sj).length) :=
      htake.symm
    have hune : pad.take ((jb ++ Si).length - (jb ++ Sj).length) ≠ [] := by
      intro e
      rw [e, List.append_nil] at hu
      have := congrArg List.length hu
      omega
    have hlast2 : (pad.take ((jb ++ Si).length - (jb ++ Sj).length)).getLast? =
        some '.' := by
      rw [hu, getLast?_append_right hune] at hlast
      exact hlast
    have hdotmem : '.' ∈ pad :=
      List.take_subset _ _ (mem_of_getLast? hlast2)
    simp only [List.all_eq_true] at hpad
    exact absurd rfl (digit_ne_dot (hpad '.' hdotmem))

theorem globMatches_iff (pfx s : String) :
    globMatches (pfx ++ "*") s = true ↔
      ((chs s).take (chs pfx).length = chs pfx ∧
        ((chs s).drop (chs pfx).length).all notSlash = true) := by
  unfold globMatches
  have hdl : (chs (pfx ++ "*")).dropLast = chs pfx := by
    rw [chs_append]
    exact List.dropLast_concat
  rw [hdl]
  simp [Bool.and_eq_true]

theorem covDir_chs (r B H : String) (myIdx : Nat)
    (hB : (chs B).all notSlash = true) :
    chs (WorkDir.ofParts r B H myIdx).CoverageDirPath =
      joinBase (chs r) ++ (chs B ++ '-' :: chs H) := by
  show chs (pathJoin r (B ++ "-" ++ H)) = _
  have hrel : chs (B ++ "-" ++ H) = chs B ++ '-' :: chs H := by
    rw [chs_append, chs_append, List.append_assoc]
    rfl
  rw [chs_pathJoin r ?hh, hrel]
  case hh =>
    rw [hrel]
    rcases e : chs B with _ | ⟨x, xs⟩
    · simp
    · rw [head?_append_left (by simp)]
      simp only [List.all_eq_true] at hB
      have hx : notSlash x = true := hB x (by rw [e]; simp)
      simp only [notSlash, decide_eq_true_eq] at hx
      simp [hx]

theorem covDir_joinBase (r B H : String) (myIdx : Nat)
    (hB : (chs B).all notSlash = true) (hH : (chs H).all notSlash = true) :
    joinBase (chs (WorkDir.ofParts r B H myIdx).CoverageDirPath) =
      chs (WorkDir.ofParts r B H myIdx).CoverageDirPath ++ ['/'] := by
  have hc := covDir_chs r B H myIdx hB
  have hne : chs (WorkDir.ofParts r B H myIdx).CoverageDirPath ≠ [] := by
    rw [hc]
    intro e
    have h2 := (List.append_eq_nil.mp e).2
    have h3 := (List.append_eq_nil.mp h2).2
    cases h3
  have hlast : (chs (WorkDir.ofParts r B H myIdx).CoverageDirPath).getLast? ≠
      some '/' := by
    rw [hc, getLast?_append_right (by simp), getLast?_append_right (by simp)]
    intro e
    have hm := mem_of_getLast? e
    rcases List.mem_cons.mp hm with hm | hm
    · cases hm
    · simp only [List.all_eq_true] at hH
      have := hH '/' hm
      rw [notSlash_false] at this
      exact Bool.false_ne_true this
  unfold joinBase
  rw [if_neg hne, if_neg hlast]

theorem features_pfx_free (r B H : String) (myIdx : Nat)
    (hB : (chs B).all notSlash = true) (hH : (chs H).all notSlash = true) :
    chs ((WorkDir.ofParts r B H myIdx).FeaturesFiles.pfx) =
      joinBase (chs r) ++
        ((chs B ++ '-' :: chs H) ++ '/' :: (chs "features" ++ ['.'])) := by
  rw [features_pfx, covDir_joinBase r B H myIdx hB hH, covDir_chs r B H myIdx hB]
  simp

theorem distilledFeatures_pfx_free (r B H : String) (myIdx : Nat)
    (hB : (chs B).all notSlash = true) (hH : (chs H).all notSlash = true) :
    chs ((WorkDir.ofParts r B H myIdx).DistilledFeaturesFiles.pfx) =
      joinBase (chs r) ++
        ((chs B ++ '-' :: chs H) ++
          '/' :: ((chs "distilled-features-" ++ chs B) ++ ['.'])) := by
  rw [distilledFeatures_pfx, covDir_joinBase r B H myIdx hB hH,
    covDir_chs r B H myIdx hB]
  simp
  rfl

theorem cancel_mid {X F G rest : List Char}
    (he : X ++ '/' :: F = (X ++ '/' :: G) ++ rest) : F = G ++ rest := by
  have e1 : (X ++ ['/']) ++ F = X ++ '/' :: F := by simp
  have e2 : (X ++ ['/']) ++ (G ++ rest) = (X ++ '/' :: G) ++ rest := by simp
  exact List.append_cancel_left (e1.trans (he.trans e2.symm))

/-- Claim C7 (amended): when `binaryName` and `binaryHash` contain no
separator character, every group's glob matches every shard path of the
same group, the four groups' prefixes are pairwise distinct, and no
group's glob matches a shard path of a group with a different prefix
(glob semantics: the final `*` matches any separator-free suffix). -/
theorem glob_correctness (r B H : String) (myIdx : Nat)
    (hB : (chs B).all notSlash = true) (hH : (chs H).all notSlash = true) :
    (∀ g i, globMatches (((WorkDir.ofParts r B H myIdx).groupFiles g).AllShardsGlob)
        (((WorkDir.ofParts r B H myIdx).groupFiles g).ShardPath i) = true) ∧
    (∀ g1 g2, g1 ≠ g2 →
      ((WorkDir.ofParts r B H myIdx).groupFiles g1).pfx ≠
        ((WorkDir.ofParts r B H myIdx).groupFiles g2).pfx) ∧
    (∀ g1 g2 i,
      ((WorkDir.ofParts r B H myIdx).groupFiles g1).pfx ≠
        ((WorkDir.ofParts r B H myIdx).groupFiles g2).pfx →
      globMatches (((WorkDir.ofParts r B H myIdx).groupFiles g1).AllShardsGlob)
        (((WorkDir.ofParts r B H myIdx).groupFiles g2).ShardPath i) = false) := by
  have hp1 : chs ((WorkDir.ofParts r B H myIdx).groupFiles SFGroup.corpus).pfx =
      joinBase (chs r) ++ (chs "corpus" ++ ['.']) := corpus_pfx _
  have hp2 : chs ((WorkDir.ofParts r B H myIdx).groupFiles SFGroup.distilledCorpus).pfx =
      joinBase (chs r) ++ ((chs "distilled-" ++ chs B) ++ ['.']) :=
    distilledCorpus_pfx _
  have hp3 : chs ((WorkDir.ofParts r B H myIdx).groupFiles SFGroup.features).pfx =
      joinBase (chs r) ++
        ((chs B ++ '-' :: chs H) ++ '/' :: (chs "features" ++ ['.'])) :=
    features_pfx_free r B H myIdx hB hH
  have hp4 : chs ((WorkDir.ofParts r B H myIdx).groupFiles SFGroup.distilledFeatures).pfx =
      joinBase (chs r) ++
        ((chs B ++ '-' :: chs H) ++
          '/' :: ((chs "distilled-features-" ++ chs B) ++ ['.'])) :=
    distilledFeatures_pfx_free r B H myIdx hB hH
  have hdne1 : chs "distilled-" ++ chs B ≠ [] := by
    intro e
    exact absurd (List.append_eq_nil.mp e).1 (by decide)
  have hdne2 : chs "distilled-features-" ++ chs B ≠ [] := by
    intro e
    exact absurd (List.append_eq_nil.mp e).1 (by decide)
  have hd1 : (chs "corpus" ++ ['.']).head? = some 'c' := rfl
  have hd2 : ((chs "distilled-" ++ chs B) ++ ['.']).head? = some 'd' := by
    rw [head?_append_left hdne1, head?_append_left (by decide)]
    rfl
  have hd3 : (chs "features" ++ ['.']).head? = some 'f' := rfl
  have hd4 : ((chs "distilled-features-" ++ chs B) ++ ['.']).head? = some 'd' := by
    rw [head?_append_left hdne2, head?_append_left (by decide)]
    rfl
  have hfree1 : (chs "corpus" ++ ['.']).all notSlash = true := by decide
  have hfree2 : ((chs "distilled-" ++ chs B) ++ ['.']).all notSlash = true := by
    simp only [List.all_append, Bool.and_eq_true]
    exact ⟨⟨by decide, hB⟩, by decide⟩
  have hsl3 : '/' ∈ (chs B ++ '-' :: chs H) ++ '/' :: (chs "features" ++ ['.']) := by
    simp
  have hsl4 : '/' ∈ (chs B ++ '-' :: chs H) ++
      '/' :: ((chs "distilled-features-" ++ chs B) ++ ['.']) := by
    simp
  have hl1 : (joinBase (chs r) ++ (chs "corpus" ++ ['.'])).getLast? = some '.' :=
    ends_dot _ _
  have hl2 : (joinBase (chs r) ++ ((chs "distilled-" ++ chs B) ++ ['.'])).getLast? =
      some '.' := ends_dot _ _
  have hl3 : (joinBase (chs r) ++
      ((chs B ++ '-' :: chs H) ++ '/' :: (chs "features" ++ ['.']))).getLast? =
      some '.' := by
    have he : (chs B ++ '-' :: chs H) ++ '/' :: (chs "features" ++ ['.']) =
        ((chs B ++ '-' :: chs H) ++ '/' :: chs "features") ++ ['.'] := by simp
    rw [he]
    exact ends_dot _ _
  have hl4 : (joinBase (chs r) ++
      ((chs B ++ '-' :: chs H) ++
        '/' :: ((chs "distilled-features-" ++ chs B) ++ ['.']))).getLast? =
      some '.' := by
    have he : (chs B ++ '-' :: chs H) ++
        '/' :: ((chs "distilled-features-" ++ chs B) ++ ['.']) =
        ((chs B ++ '-' :: chs H) ++
          '/' :: (chs "distilled-features-" ++ chs B)) ++ ['.'] := by simp
    rw [he]
    exact ends_dot _ _
  have key12 : ∀ rest : List Char, rest.all notSlash = true →
      (chs "distilled-" ++ chs B) ++ ['.'] = (chs "corpus" ++ ['.']) ++ rest → False :=
    fun _ _ he => key_head_ne hd2 hd1 (by decide) he
  have key21 : ∀ rest : List Char, rest.all notSlash = true →
      chs "corpus" ++ ['.'] = ((chs "distilled-" ++ chs B) ++ ['.']) ++ rest → False :=
    fun _ _ he => key_head_ne hd1 hd2 (by decide) he
  have key13 : ∀ rest : List Char, rest.all notSlash = true →
      (chs B ++ '-' :: chs H) ++ '/' :: (chs "features" ++ ['.']) =
        (chs "corpus" ++ ['.']) ++ rest → False :=
    fun _ hrest he => key_slash_into_free hsl3 hfree1 hrest he
  have key14 : ∀ rest : List Char, rest.all notSlash = true →
      (chs B ++ '-' :: chs H) ++ '/' :: ((chs "distilled-features-" ++ chs B) ++ ['.']) =
        (chs "corpus" ++ ['.']) ++ rest → False :=
    fun _ hrest he => key_slash_into_free hsl4 hfree1 hrest he
  have key23 : ∀ rest : List Char, rest.all notSlash = true →
      (chs B ++ '-' :: chs H) ++ '/' :: (chs "features" ++ ['.']) =
        ((chs "distilled-" ++ chs B) ++ ['.']) ++ rest → False :=
    fun _ hrest he => key_slash_into_free hsl3 hfree2 hrest he
  have key24 : ∀ rest : List Char, rest.all notSlash = true →
      (chs B ++ '-' :: chs H) ++ '/' :: ((chs "distilled-features-" ++ chs B) ++ ['.']) =
        ((chs "distilled-" ++ chs B) ++ ['.']) ++ rest → False :=
    fun _ hrest he => key_slash_into_free hsl4 hfree2 hrest he
  have key31 : ∀ rest : List Char, rest.all notSlash = true →
      chs "corpus" ++ ['.'] =
        ((chs B ++ '-' :: chs H) ++ '/' :: (chs "features" ++ ['.'])) ++ rest → False :=
    fun _ _ he => key_free_from_slash hsl3 hfree1 he
  have key41 : ∀ rest : List Char, rest.all notSlash = true →
      chs "corpus" ++ ['.'] =
        ((chs B ++ '-' :: chs H) ++
          '/' :: ((chs "distilled-features-" ++ chs B) ++ ['.'])) ++ rest → False :=
    fun _ _ he => key_free_from_slash hsl4 hfree1 he
  have key32 : ∀ rest : List Char, rest.all notSlash = true →
      (chs "distilled-" ++ chs B) ++ ['.'] =
        ((chs B ++ '-' :: chs H) ++ '/' :: (chs "features" ++ ['.'])) ++ rest → False :=
    fun _ _ he => key_free_from_slash hsl3 hfree2 he
  have key42 : ∀ rest : List Char, rest.all notSlash = true →
      (chs "distilled-" ++ chs B) ++ ['.'] =
        ((chs B ++ '-' :: chs H) ++
          '/' :: ((chs "distilled-features-" ++ chs B) ++ ['.'])) ++ rest → False :=
    fun _ _ he => key_free_from_slash hsl4 hfree2 he
  have key34 : ∀ rest : List Char, rest.all notSlash = true →
      (chs B ++ '-' :: chs H) ++ '/' :: ((chs "distilled-features-" ++ chs B) ++ ['.']) =
        ((chs B ++ '-' :: chs H) ++ '/' :: (chs "features" ++ ['.'])) ++ rest → False :=
    fun _ _ he => key_head_ne hd4 hd3 (by decide) (cancel_mid he)
  have key43 : ∀ rest : List Char, rest.all notSlash = true →
      (chs B ++ '-' :: chs H) ++ '/' :: (chs "features" ++ ['.']) =
        ((chs B ++ '-' :: chs H) ++
          '/' :: ((chs "distilled-features-" ++ chs B) ++ ['.'])) ++ rest → False :=
    fun _ _ he => key_head_ne hd3 hd4 (by decide) (cancel_mid he)
  refine ⟨?_, ?_, ?_⟩
  · intro g i
    rw [show ((WorkDir.ofParts r B H myIdx).groupFiles g).AllShardsGlob =
      ((WorkDir.ofParts r B H myIdx).groupFiles g).pfx ++ "*" from rfl]
    rw [globMatches_iff, chs_shardPath]
    refine ⟨List.take_left _ _, ?_⟩
    rw [List.drop_left]
    exact digits_notSlash (zeroPad_all_digits _ _)
  · intro g1 g2 hne hpe
    have hch := congrArg chs hpe
    cases g1 with
    | corpus =>
      cases g2 with
      | corpus => exact absurd rfl hne
      | distilledCorpus =>
        rw [hp1, hp2] at hch
        exact key12 [] (by decide)
          (by rw [List.append_nil]; exact (List.append_cancel_left hch).symm)
      | features =>
        rw [hp1, hp3] at hch
        exact key13 [] (by decide)
          (by rw [List.append_nil]; exact (List.append_cancel_left hch).symm)
      | distilledFeatures =>
        rw [hp1, hp4] at hch
        exact key14 [] (by decide)
          (by rw [List.append_nil]; exact (List.append_cancel_left hch).symm)
    | distilledCorpus =>
      cases g2 with
      | corpus =>
        rw [hp2, hp1] at hch
        exact key21 [] (by decide)
          (by rw [List.append_nil]; exact (List.append_cancel_left hch).symm)
      | distilledCorpus => exact absurd rfl hne
      | features =>
        rw [hp2, hp3] at hch
        exact key23 [] (by decide)
          (by rw [List.append_nil]; exact (List.append_cancel_left hch).symm)
      | distilledFeatures =>
        rw [hp2, hp4] at hch
        exact key24 [] (by decide)
          (by rw [List.append_nil]; exact (List.append_cancel_left hch).symm)
    | features =>
      cases g2 with
      | corpus =>
        rw [hp3, hp1] at hch
        exact key31 [] (by decide)
          (by rw [List.append_nil]; exact (List.append_cancel_left hch).symm)
      | distilledCorpus =>
        rw [hp3, hp2] at hch
        exact key32 [] (by decide)
          (by rw [List.append_nil]; exact (List.append_cancel_left hch).symm)
      | features => exact absurd rfl hne
      | distilledFeatures =>
        rw [hp3, hp4] at hch
        exact key34 [] (by decide)
          (by rw [List.append_nil]; exact (List.append_cancel_left hch).symm)
    | distilledFeatures =>
      cases g2 with
      | corpus =>
        rw [hp4, hp1] at hch
        exact key41 [] (by decide)
          (by rw [List.append_nil]; exact (List.append_cancel_left hch).symm)
      | distilledCorpus =>
        rw [hp4, hp2] at hch
        exact key42 [] (by decide)
          (by rw [List.append_nil]; exact (List.append_cancel_left hch).symm)
      | features =>
        rw [hp4, hp3] at hch
        exact key43 [] (by decide)
          (by rw [List.append_nil]; exact (List.append_cancel_left hch).symm)
      | distilledFeatures => exact absurd rfl hne
  · intro g1 g2 i hpfxne
    rw [Bool.eq_false_iff]
    intro hgm
    rw [show ((WorkDir.ofParts r B H myIdx).groupFiles g1).AllShardsGlob =
      ((WorkDir.ofParts r B H myIdx).groupFiles g1).pfx ++ "*" from rfl] at hgm
    rw [globMatches_iff, chs_shardPath] at hgm
    cases g1 with
    | corpus =>
      cases g2 with
      | corpus => exact absurd rfl hpfxne
      | distilledCorpus =>
        rw [hp1, hp2] at hgm
        exact no_cross_match hl1 (zeroPad_all_digits _ _) key12 hgm
      | features =>
        rw [hp1, hp3] at hgm
        exact no_cross_match hl1 (zeroPad_all_digits _ _) key13 hgm
      | distilledFeatures =>
        rw [hp1, hp4] at hgm
        exact no_cross_match hl1 (zeroPad_all_digits _ _) key14 hgm
    | distilledCorpus =>
      cases g2 with
      | corpus =>
        rw [hp2, hp1] at hgm
        exact no_cross_match hl2 (zeroPad_all_digits _ _) key21 hgm
      | distilledCorpus => exact absurd rfl hpfxne
      | features =>
        rw [hp2, hp3] at hgm
        exact no_cross_match hl2 (zeroPad_all_digits _ _) key23 hgm
      | distilledFeatures =>
        rw [hp2, hp4] at hgm
        exact no_cross_match hl2 (zeroPad_all_digits _ _) key24 hgm
    | features =>
      cases g2 with
      | corpus =>
        rw [hp3, hp1] at hgm
        exact no_cross_match hl3 (zeroPad_all_digits _ _) key31 hgm
      | distilledCorpus =>
        rw [hp3, hp2] at hgm
        exact no_cross_match hl3 (zeroPad_all_digits _ _) key32 hgm
      | features => exact absurd rfl hpfxne
      | distilledFeatures =>
        rw [hp3, hp4] at hgm
        exact no_cross_match hl3 (zeroPad_all_digits _ _) key34 hgm
    | distilledFeatures =>
      cases g2 with
      | corpus =>
        rw [hp4, hp1] at hgm
        exact no_cross_match hl4 (zeroPad_all_digits _ _) key41 hgm
      | distilledCorpus =>
        rw [hp4, hp2] at hgm
        exact no_cross_match hl4 (zeroPad_all_digits _ _) key42 hgm
      | features =>
        rw [hp4, hp3] at hgm
        exact no_cross_match hl4 (zeroPad_all_digits _ _) key43 hgm
      | distilledFeatures => exact absurd rfl hpfxne

/-- Witness for C7's amended theorem: corpus glob does not match a
features shard path at a concrete slash-free identity. -/
theorem glob_correctness_witness :
    globMatches (((WorkDir.ofParts "/r" "b" "h" 0).groupFiles SFGroup.corpus).AllShardsGlob)
        (((WorkDir.ofParts "/r" "b" "h" 0).groupFiles SFGroup.features).ShardPath 3) =
      false :=
  (glob_correctness "/r" "b" "h" 0 (by decide) (by decide)).2.2
    SFGroup.corpus SFGroup.features 3 (by decide)

/-- Counterexample to claim C7 as stated: for the identity
`rootDir = "/corpus.-h/distilled-features-"`, `binaryName = "/corpus."`,
`binaryHash = "h"`, the corpus files glob matches the distilled-features
shard path of shard 5 although the two groups' prefixes differ. -/
theorem glob_cross_match_cex :
    globMatches
        ((WorkDir.ofParts "/corpus.-h/distilled-features-" "/corpus." "h" 0).CorpusFiles.AllShardsGlob)
        ((WorkDir.ofParts "/corpus.-h/distilled-features-" "/corpus." "h" 0).DistilledFeaturesFiles.ShardPath 5) =
        true ∧
      (WorkDir.ofParts "/corpus.-h/distilled-features-" "/corpus." "h" 0).CorpusFiles.pfx ≠
        (WorkDir.ofParts "/corpus.-h/distilled-features-" "/corpus." "h" 0).DistilledFeaturesFiles.pfx := by
  decide
